import Mathlib

/-!
Verification of the wordle helper core: the feedback-pattern simulator
`get_feedback_pattern`, the candidate filters `filter_candidates` (two source
variants), the entropy scorer `calculate_entropy`, the hard-mode check
`enforce_hard_mode_filter` and the guess selectors `pick_guess_entropy` /
`pick_guess`, embedded shallowly as Lean functions over `List Char` words.
Strings are modelled as lists of characters; the feedback alphabet is the
characters `G`, `Y` and `_` exactly as in the source.
-/

namespace WordleHelper

/-- A word: a sequence of characters. In this code base every word fed to the
core is a 5-letter lowercase word. -/
abbrev Word := List Char

/-- First pass of `get_feedback_pattern` (whwe.py lines 27-31,
wordlehelperwentropy.py lines 22-26): position `i` is marked `G` when
`guess[i] == target[i]`, otherwise it keeps the initial `_` mark. -/
def greenMarks (guess target : Word) : List Char :=
  List.zipWith (fun g t => if g = t then 'G' else '_') guess target

/-- The `target_chars` list after the first pass: the letters of `target`, with
the position of every green consumed (set to `None`). -/
def tcAfterGreens (guess target : Word) : List (Option Char) :=
  List.zipWith (fun g t => if g = t then none else some t) guess target

/-- Consume the leftmost unconsumed occurrence of `c` in `target_chars`
(`target_chars[target_chars.index(guess[i])] = None` in the source). -/
def consume (c : Char) : List (Option Char) → List (Option Char)
  | [] => []
  | o :: rest => if o = some c then none :: rest else o :: consume c rest

/-- Second pass of `get_feedback_pattern` (whwe.py lines 33-37): walk the
guess letters paired with their first-pass marks left to right, threading
`target_chars`; a still-gray position whose letter remains unconsumed becomes
`Y` and consumes that letter. -/
def yellowPass : List (Char × Char) → List (Option Char) → List (Char × Char)
  | [], _ => []
  | (g, f) :: rest, tc =>
    if f = '_' ∧ some g ∈ tc then (g, 'Y') :: yellowPass rest (consume g tc)
    else (g, f) :: yellowPass rest tc

/-- The feedback simulator `get_feedback_pattern(guess, target)` of whwe.py
lines 22-39; wordlehelperwentropy.py lines 17-34 is textually identical. -/
def get_feedback_pattern (guess target : Word) : List Char :=
  (yellowPass (guess.zip (greenMarks guess target)) (tcAfterGreens guess target)).map
    Prod.snd

/-- The count `total_feedback_count` of wordlehelper.py lines 53-56: the number
of positions `j` whose guess letter is `c` and whose feedback is `G` or `Y`. -/
def fbCount (guess feedback : List Char) (c : Char) : Nat :=
  (guess.zip feedback).countP fun x => decide (x.1 = c ∧ (x.2 = 'G' ∨ x.2 = 'Y'))

/-- The per-word predicate of `filter_candidates` in whwe.py lines 85-89.  Note
that the gray branch compares letter counts in `word` against
`feedback.count(g)`, the number of occurrences of the guess letter `g` inside
the feedback string itself. -/
def keeps_whwe (word guess feedback : List Char) : Bool :=
  (word.zip (guess.zip feedback)).all fun x =>
    decide ((x.2.2 = 'G' ∧ x.1 = x.2.1) ∨
      (x.2.2 = 'Y' ∧ x.1 ≠ x.2.1 ∧ x.2.1 ∈ word) ∨
      (x.2.2 = '_' ∧ (if feedback.count x.2.1 = 0 then x.2.1 ∉ word
        else word.count x.2.1 = feedback.count x.2.1)))

/-- `filter_candidates(candidates, guess, feedback)` of whwe.py lines 82-92. -/
def filter_candidates_whwe (candidates : List Word) (guess feedback : List Char) :
    List Word :=
  candidates.filter fun word => keeps_whwe word guess feedback

/-- First loop of `filter_candidates` in wordlehelper.py lines 34-38: every
green position must match. -/
def keeps_wh_greens (word guess feedback : List Char) : Bool :=
  (word.zip (guess.zip feedback)).all fun x => decide (x.2.2 = 'G' → x.1 = x.2.1)

/-- Second loop of `filter_candidates` in wordlehelper.py lines 44-68: yellows
require the letter elsewhere, grays require the letter-count of the word to
agree with the number of green/yellow marks that letter received. -/
def keeps_wh_yg (word guess feedback : List Char) : Bool :=
  (word.zip (guess.zip feedback)).all fun x =>
    decide ((x.2.2 = 'Y' → x.2.1 ∈ word ∧ x.1 ≠ x.2.1) ∧
      (x.2.2 = '_' → (if fbCount guess feedback x.2.1 = 0 then x.2.1 ∉ word
        else word.count x.2.1 = fbCount guess feedback x.2.1)))

/-- `filter_candidates(cands, guess, feedback)` of wordlehelper.py lines 28-73;
wordlehelperwentropy.py lines 105-150 is textually identical. -/
def filter_candidates_wh (candidates : List Word) (guess feedback : List Char) :
    List Word :=
  candidates.filter fun word =>
    keeps_wh_greens word guess feedback && keeps_wh_yg word guess feedback

/-- `enforce_hard_mode_filter(word, guess, feedback)` of whwe.py lines 48-54:
the word passes iff every green position matches exactly and every yellow
letter occurs in the word but not at the yellow position. -/
def enforce_hard_mode_filter (word guess feedback : List Char) : Bool :=
  (word.zip (guess.zip feedback)).all fun x =>
    decide ((x.2.2 = 'G' → x.1 = x.2.1) ∧
      (x.2.2 = 'Y' → x.2.1 ∈ word ∧ x.1 ≠ x.2.1))

/-- The letter-frequency table `letter_freq(words)` of whwe.py lines 15-20:
each word contributes each of its distinct letters once, so the count of a
letter is the number of words containing it. -/
def letter_freq (words : List Word) (c : Char) : Nat :=
  words.countP fun w => decide (c ∈ w)

/-- Stable insertion of a letter into a list sorted by strictly descending
frequency, used to model `Counter.most_common`. -/
def insertByCount (freq : Char → Nat) (c : Char) : List Char → List Char
  | [] => [c]
  | d :: rest =>
    if freq d < freq c then c :: d :: rest else d :: insertByCount freq c rest

/-- Stable sort by descending frequency. -/
def sortByCount (freq : Char → Nat) : List Char → List Char
  | [] => []
  | c :: rest => insertByCount freq c (sortByCount freq rest)

/-- The `top5_letters` of whwe.py line 78: the five letters of highest
frequency among the candidates.  The source obtains its key order from Python
set iteration, which is unspecified; the embedding uses first-occurrence order.
No claim proved below depends on this order. -/
def most_common5 (words : List Word) : List Char :=
  (sortByCount (letter_freq words) (words.flatten.dedup)).take 5

/-- The list of feedback patterns a guess produces against each candidate;
`pattern_counts` in the source is the multiset of these. -/
def patterns (guess : Word) (candidates : List Word) : List (List Char) :=
  candidates.map fun target => get_feedback_pattern guess target

/-- `calculate_entropy(guess, candidates)` of whwe.py lines 41-46 (and, with
the same value, wordlehelperwentropy.py lines 36-55): Shannon entropy in bits
of the distribution of feedback patterns over the candidates; `0.0` on an
empty candidate list.  The source's floats are modelled as real numbers. -/
noncomputable def calculate_entropy (guess : Word) (candidates : List Word) : ℝ :=
  if candidates.isEmpty then 0
  else
    (patterns guess candidates).toFinset.sum fun p =>
      -((((patterns guess candidates).count p : ℝ) / (candidates.length : ℝ)) *
        Real.logb 2 (((patterns guess candidates).count p : ℝ) / (candidates.length : ℝ)))

/-- The guess pool of `pick_guess_entropy` (whwe.py lines 59-61): `all_words`
when present and non-empty (Python truthiness), else the candidates; restricted
by `enforce_hard_mode_filter` when hard mode is on and a previous guess and
feedback exist (Python truthiness of the strings). -/
def guess_pool (candidates : List Word) (all_words : Option (List Word))
    (hard_mode : Bool) (last_guess last_feedback : List Char) : List Word :=
  let pool0 := match all_words with
    | some aw => if aw.isEmpty then candidates else aw
    | none => candidates
  if hard_mode ∧ last_guess ≠ [] ∧ last_feedback ≠ [] then
    pool0.filter fun w => enforce_hard_mode_filter w last_guess last_feedback
  else pool0

/-- One iteration of the best-guess loop of whwe.py lines 65-71: score a guess
by its entropy against the sampled candidates plus a `0.01` bonus when the
guess is itself still a candidate, and keep it when it strictly beats the best
so far. -/
noncomputable def best_step (sample_cands candidates : List Word)
    (best : Option Word × ℝ) (g : Word) : Option Word × ℝ :=
  let e := calculate_entropy g sample_cands +
    (if g ∈ candidates then (0.01 : ℝ) else 0)
  if best.2 < e then (some g, e) else best

/-- The best-guess scan of whwe.py lines 63-71: fold `best_step` over the guess
pool starting from `(None, -1.0)`. -/
noncomputable def best_fold (sample_cands candidates pool : List Word) :
    Option Word × ℝ :=
  pool.foldl (best_step sample_cands candidates) (none, -1)

/-- `pick_guess_entropy(candidates, all_words, max_candidates, hard_mode,
last_guess, last_feedback)` of whwe.py lines 56-72.  The ambient random source
is injected: `sample` models `random.sample` and `choice` models
`random.choice`, the latter returning `none` where CPython would raise
(choice from an empty list).  wordlehelperwentropy.py lines 57-86 is the same
algorithm with bonus `0.1` and no hard-mode parameters; no claim below depends
on the bonus value. -/
noncomputable def pick_guess_entropy (choice : List Word → Option Word)
    (sample : List Word → Nat → List Word) (candidates : List Word)
    (all_words : Option (List Word)) (max_candidates : Nat) (hard_mode : Bool)
    (last_guess last_feedback : List Char) : Option Word :=
  if candidates.length = 1 then candidates.head?
  else
    let pool := guess_pool candidates all_words hard_mode last_guess last_feedback
    let sample_cands := if candidates.length > max_candidates then
        sample candidates max_candidates
      else candidates
    match (best_fold sample_cands candidates pool).1 with
    | some g => some g
    | none => choice candidates

/-- `pick_guess(candidates, all_words, use_entropy, hard_mode, last_guess,
last_feedback)` of whwe.py lines 74-80: dispatch to the entropy selector, or
use the frequency heuristic (candidates containing all of the five most
frequent letters, random choice with fallback to all candidates). -/
noncomputable def pick_guess (choice : List Word → Option Word)
    (sample : List Word → Nat → List Word) (candidates : List Word)
    (all_words : Option (List Word)) (use_entropy : Bool) (hard_mode : Bool)
    (last_guess last_feedback : List Char) : Option Word :=
  if use_entropy then
    pick_guess_entropy choice sample candidates all_words 50 hard_mode
      last_guess last_feedback
  else
    let top5 := most_common5 candidates
    let filtered := candidates.filter fun w => top5.all fun c => decide (c ∈ w)
    choice (if filtered.isEmpty then candidates else filtered)

theorem consume_count_ne {c c' : Char} (h : c ≠ c') :
    ∀ tc : List (Option Char), (consume c' tc).count (some c) = tc.count (some c) := by
  intro tc
  induction tc with
  | nil => rfl
  | cons o rest ih =>
    by_cases ho : o = some c'
    · subst ho
      rw [consume, if_pos rfl]
      simp [List.count_cons, Ne.symm h]
    · rw [consume, if_neg ho]
      simp [List.count_cons, ih]

theorem consume_count_self (c : Char) :
    ∀ tc : List (Option Char), some c ∈ tc →
      (consume c tc).count (some c) + 1 = tc.count (some c) := by
  intro tc
  induction tc with
  | nil => intro h; exact absurd h (List.not_mem_nil _)
  | cons o rest ih =>
    intro hmem
    by_cases ho : o = some c
    · subst ho
      rw [consume, if_pos rfl]
      simp [List.count_cons]
    · have hrest : some c ∈ rest := by
        rcases List.mem_cons.mp hmem with h | h
        · exact absurd h.symm ho
        · exact h
      rw [consume, if_neg ho]
      simp only [List.count_cons]
      rw [← ih hrest]
      omega

theorem yellowPass_nonGray_le (c : Char) :
    ∀ (xs : List (Char × Char)) (tc : List (Option Char)),
      ((yellowPass xs tc).countP fun p => decide (p.1 = c ∧ p.2 ≠ '_')) ≤
        (xs.countP fun p => decide (p.1 = c ∧ p.2 ≠ '_')) + tc.count (some c) := by
  intro xs
  induction xs with
  | nil => intro tc; simp [yellowPass]
  | cons p rest ih =>
    intro tc
    obtain ⟨g, f⟩ := p
    by_cases hb : f = '_' ∧ some g ∈ tc
    · rw [yellowPass, if_pos hb]
      by_cases hgc : g = c
      · subst hgc
        have hcons := consume_count_self g tc hb.2
        have hrec := ih (consume g tc)
        simp only [List.countP_cons, decide_eq_true_eq]
        split_ifs <;> omega
      · have hne : c ≠ g := fun hc => hgc hc.symm
        have hcons := consume_count_ne hne tc
        have hrec := ih (consume g tc)
        simp only [List.countP_cons, decide_eq_true_eq]
        split_ifs with h1 h2 <;>
          first
            | exact absurd h1.1 hgc
            | exact absurd h2.1 hgc
            | omega
    · rw [yellowPass, if_neg hb]
      have hrec := ih tc
      simp only [List.countP_cons, decide_eq_true_eq]
      split_ifs with h1 h2 <;>
        first
          | exact absurd h1.1 (fun _ => h2 h1)
          | exact absurd h2.1 (fun _ => h1 h2)
          | omega

theorem pass1_count (c : Char) :
    ∀ (g t : List Char), g.length = t.length →
      ((g.zip (greenMarks g t)).countP fun p => decide (p.1 = c ∧ p.2 ≠ '_')) +
        (tcAfterGreens g t).count (some c) = t.count c := by
  intro g
  induction g with
  | nil =>
    intro t ht
    have : t = [] := List.length_eq_zero.mp ht.symm
    subst this
    simp [greenMarks, tcAfterGreens]
  | cons a g ih =>
    intro t ht
    cases t with
    | nil => simp at ht
    | cons b t =>
      have hlen : g.length = t.length := by simpa using ht
      have hrec := ih t hlen
      simp only [greenMarks, tcAfterGreens] at hrec ⊢
      simp only [List.zipWith_cons_cons, List.zip_cons_cons]
      by_cases hab : a = b
      · subst hab
        rw [if_pos rfl, if_pos rfl]
        simp only [List.countP_cons, List.count_cons, decide_eq_true_eq, beq_iff_eq]
        split_ifs with h1 h2 h3 <;>
          first
            | omega
            | simp_all
            | (exact absurd ⟨(by assumption), by decide⟩ (by assumption))
      · rw [if_neg hab, if_neg hab]
        simp only [List.countP_cons, List.count_cons, decide_eq_true_eq, beq_iff_eq]
        split_ifs <;>
          first
            | omega
            | simp_all
            | (exact absurd ⟨(by assumption), by decide⟩ (by assumption))

theorem yellowPass_map_fst :
    ∀ (xs : List (Char × Char)) (tc : List (Option Char)),
      (yellowPass xs tc).map Prod.fst = xs.map Prod.fst := by
  intro xs
  induction xs with
  | nil => intro tc; simp [yellowPass]
  | cons p rest ih =>
    intro tc
    obtain ⟨g, f⟩ := p
    by_cases hb : f = '_' ∧ some g ∈ tc
    · rw [yellowPass, if_pos hb]
      simp [ih]
    · rw [yellowPass, if_neg hb]
      simp [ih]

theorem zip_of_map_fst_snd {α β : Type} :
    ∀ l : List (α × β), (l.map Prod.fst).zip (l.map Prod.snd) = l := by
  intro l
  induction l with
  | nil => rfl
  | cons p rest ih => simp [ih]

theorem yellowPass_length :
    ∀ (xs : List (Char × Char)) (tc : List (Option Char)),
      (yellowPass xs tc).length = xs.length := by
  intro xs
  induction xs with
  | nil => intro tc; rfl
  | cons p rest ih =>
    intro tc
    obtain ⟨g, f⟩ := p
    by_cases hb : f = '_' ∧ some g ∈ tc
    · rw [yellowPass, if_pos hb]; simp [ih]
    · rw [yellowPass, if_neg hb]; simp [ih]

theorem greenMarks_length (g t : List Char) :
    (greenMarks g t).length = min g.length t.length :=
  List.length_zipWith _ _ _

theorem yellowPass_symbols :
    ∀ (xs : List (Char × Char)) (tc : List (Option Char)),
      (∀ p ∈ xs, p.2 = 'G' ∨ p.2 = '_') →
        ∀ q ∈ yellowPass xs tc, q.2 = 'G' ∨ q.2 = 'Y' ∨ q.2 = '_' := by
  intro xs
  induction xs with
  | nil => intro tc _ q hq; simp [yellowPass] at hq
  | cons p rest ih =>
    intro tc hx q hq
    obtain ⟨g, f⟩ := p
    by_cases hb : f = '_' ∧ some g ∈ tc
    · rw [yellowPass, if_pos hb] at hq
      rcases List.mem_cons.mp hq with h | h
      · subst h; right; left; rfl
      · exact ih (consume g tc) (fun p hp => hx p (List.mem_cons_of_mem _ hp)) q h
    · rw [yellowPass, if_neg hb] at hq
      rcases List.mem_cons.mp hq with h | h
      · subst h
        rcases hx (g, f) (List.mem_cons_self _ _) with h | h
        · left; exact h
        · right; right; exact h
      · exact ih tc (fun p hp => hx p (List.mem_cons_of_mem _ hp)) q h

theorem yellowPass_gcount :
    ∀ (xs : List (Char × Char)) (tc : List (Option Char)),
      ((yellowPass xs tc).countP fun p => decide (p.2 = 'G')) =
        xs.countP fun p => decide (p.2 = 'G') := by
  intro xs
  induction xs with
  | nil => intro tc; simp [yellowPass]
  | cons p rest ih =>
    intro tc
    obtain ⟨g, f⟩ := p
    by_cases hb : f = '_' ∧ some g ∈ tc
    · rw [yellowPass, if_pos hb]
      simp only [List.countP_cons, decide_eq_true_eq, ih, hb.1]
      simp
    · rw [yellowPass, if_neg hb]
      simp only [List.countP_cons, decide_eq_true_eq, ih]

theorem yellowPass_all_G :
    ∀ (xs : List (Char × Char)) (tc : List (Option Char)),
      (∀ q ∈ yellowPass xs tc, q.2 = 'G') ↔ ∀ p ∈ xs, p.2 = 'G' := by
  intro xs
  induction xs with
  | nil => intro tc; simp [yellowPass]
  | cons p rest ih =>
    intro tc
    obtain ⟨g, f⟩ := p
    by_cases hb : f = '_' ∧ some g ∈ tc
    · rw [yellowPass, if_pos hb]
      constructor
      · intro h
        have h1 : ('Y' : Char) = 'G' := h (g, 'Y') (List.mem_cons_self _ _)
        exact absurd h1 (by decide)
      · intro h
        have h1 := h (g, f) (List.mem_cons_self _ _)
        rw [hb.1] at h1
        have h2 : ('_' : Char) = 'G' := h1
        exact absurd h2 (by decide)
    · rw [yellowPass, if_neg hb]
      constructor
      · intro h
        intro p hp
        rcases List.mem_cons.mp hp with h1 | h1
        · subst h1; exact h (g, f) (List.mem_cons_self _ _)
        · exact ((ih tc).mp fun q hq => h q (List.mem_cons_of_mem _ hq)) p h1
      · intro h q hq
        rcases List.mem_cons.mp hq with h1 | h1
        · subst h1; exact h (g, f) (List.mem_cons_self _ _)
        · exact ((ih tc).mpr fun p hp => h p (List.mem_cons_of_mem _ hp)) q h1

theorem greenMarks_mem (g t : List Char) :
    ∀ m ∈ greenMarks g t, m = 'G' ∨ m = '_' := by
  induction g generalizing t with
  | nil => intro m hm; simp [greenMarks] at hm
  | cons a g ih =>
    intro m hm
    cases t with
    | nil => simp [greenMarks] at hm
    | cons b t =>
      simp only [greenMarks, List.zipWith_cons_cons] at hm
      rcases List.mem_cons.mp hm with h | h
      · subst h
        by_cases hab : a = b
        · rw [if_pos hab]; left; rfl
        · rw [if_neg hab]; right; rfl
      · exact ih t m h

theorem greenMarks_all_G (g t : List Char) (h : g.length = t.length) :
    (∀ m ∈ greenMarks g t, m = 'G') ↔ g = t := by
  induction g generalizing t with
  | nil =>
    have : t = [] := List.length_eq_zero.mp h.symm
    subst this
    simp [greenMarks]
  | cons a g ih =>
    cases t with
    | nil => simp at h
    | cons b t =>
      have hlen : g.length = t.length := by simpa using h
      simp only [greenMarks, List.zipWith_cons_cons, List.forall_mem_cons]
      rw [show (List.zipWith (fun g t => if g = t then 'G' else '_') g t) =
        greenMarks g t from rfl, ih t hlen]
      constructor
      · rintro ⟨h1, h2⟩
        by_cases hab : a = b
        · rw [hab, h2]
        · rw [if_neg hab] at h1; exact absurd h1 (by decide)
      · intro h1
        obtain ⟨rfl, rfl⟩ : a = b ∧ g = t := by
          constructor
          · exact (List.cons_eq_cons.mp h1).1
          · exact (List.cons_eq_cons.mp h1).2
        exact ⟨by rw [if_pos rfl], rfl⟩

theorem greenMarks_gcount (g t : List Char) :
    ((greenMarks g t).countP fun m => decide (m = 'G')) =
      (g.zip t).countP fun p => decide (p.1 = p.2) := by
  induction g generalizing t with
  | nil => simp [greenMarks]
  | cons a g ih =>
    cases t with
    | nil => simp [greenMarks]
    | cons b t =>
      simp only [greenMarks, List.zipWith_cons_cons, List.zip_cons_cons,
        List.countP_cons, decide_eq_true_eq]
      rw [show (List.zipWith (fun g t => if g = t then 'G' else '_') g t) =
        greenMarks g t from rfl, ih t]
      by_cases hab : a = b
      · rw [if_pos hab, if_pos (show ('G' : Char) = 'G' from rfl), if_pos hab]
      · rw [if_neg hab, if_neg (show ¬('_' : Char) = 'G' by decide), if_neg hab]

/-- Abbreviation for the paired state the second pass runs on. -/
def passInput (g t : List Char) : List (Char × Char) := g.zip (greenMarks g t)

theorem passInput_map_fst (g t : List Char) (h : g.length = t.length) :
    (passInput g t).map Prod.fst = g := by
  apply List.map_fst_zip
  rw [greenMarks_length]
  omega

theorem passInput_map_snd (g t : List Char) (h : g.length = t.length) :
    (passInput g t).map Prod.snd = greenMarks g t := by
  apply List.map_snd_zip
  rw [greenMarks_length]
  omega

theorem zip_feedback_eq (g t : List Char) (h : g.length = t.length) :
    g.zip (get_feedback_pattern g t) =
      yellowPass (passInput g t) (tcAfterGreens g t) := by
  have h1 := zip_of_map_fst_snd (yellowPass (passInput g t) (tcAfterGreens g t))
  have h2 : (yellowPass (passInput g t) (tcAfterGreens g t)).map Prod.fst = g := by
    rw [yellowPass_map_fst]
    exact passInput_map_fst g t h
  rw [h2] at h1
  rw [get_feedback_pattern]
  exact h1

theorem get_feedback_pattern_length (g t : List Char) (h : g.length = t.length) :
    (get_feedback_pattern g t).length = g.length := by
  rw [get_feedback_pattern, List.length_map, yellowPass_length, List.length_zip,
    greenMarks_length]
  omega

/-- C3: for every 5-letter guess and target and every letter `c`, the number of
positions marked `G` or `Y` by `get_feedback_pattern` among positions where the
guess has letter `c` is at most the number of occurrences of `c` in the target:
the two-pass simulator consumes the target's letters as a multiset. -/
theorem feedback_multiset_bound (g t : List Char) (hg : g.length = 5)
    (ht : t.length = 5) (c : Char) :
    ((g.zip (get_feedback_pattern g t)).countP fun p => decide (p.1 = c ∧ p.2 ≠ '_')) ≤
      t.count c := by
  have hlen : g.length = t.length := by omega
  rw [zip_feedback_eq g t hlen]
  calc ((yellowPass (passInput g t) (tcAfterGreens g t)).countP
        fun p => decide (p.1 = c ∧ p.2 ≠ '_'))
      ≤ ((passInput g t).countP fun p => decide (p.1 = c ∧ p.2 ≠ '_')) +
          (tcAfterGreens g t).count (some c) := yellowPass_nonGray_le c _ _
    _ = t.count c := pass1_count c g t hlen

/-- Witness for C3 at the spec's own fixture: guess "sassy" against target
"casts" awards two non-gray marks for the letter `s`, and "casts" contains
exactly two `s`. -/
theorem feedback_multiset_bound_witness :
    (['s', 'a', 's', 's', 'y'] : List Char).length = 5 ∧
    (['c', 'a', 's', 't', 's'] : List Char).length = 5 ∧
    ((['s', 'a', 's', 's', 'y'].zip
        (get_feedback_pattern ['s', 'a', 's', 's', 'y'] ['c', 'a', 's', 't', 's'])).countP
      fun p => decide (p.1 = 's' ∧ p.2 ≠ '_')) ≤ ['c', 'a', 's', 't', 's'].count 's' :=
  ⟨by decide, by decide,
    feedback_multiset_bound ['s', 'a', 's', 's', 'y'] ['c', 'a', 's', 't', 's']
      (by decide) (by decide) 's'⟩

/-- C4: for 5-letter guess and target the feedback pattern has exactly 5
symbols, each drawn from `G`, `Y`, `_`, and the number of `G` symbols equals
the number of exact positional matches.  Determinism is definitional:
`get_feedback_pattern` is a pure function of its two arguments. -/
theorem feedback_pattern_shape (g t : List Char) (hg : g.length = 5)
    (ht : t.length = 5) :
    (get_feedback_pattern g t).length = 5 ∧
    (∀ f ∈ get_feedback_pattern g t, f = 'G' ∨ f = 'Y' ∨ f = '_') ∧
    (get_feedback_pattern g t).count 'G' =
      ((g.zip t).countP fun p => decide (p.1 = p.2)) := by
  have hlen : g.length = t.length := by omega
  refine ⟨?_, ?_, ?_⟩
  · rw [get_feedback_pattern_length g t hlen, hg]
  · rw [get_feedback_pattern]
    intro f hf
    rcases List.mem_map.mp hf with ⟨q, hq, rfl⟩
    refine yellowPass_symbols _ _ ?_ q hq
    intro p hp
    exact greenMarks_mem g t _ (List.of_mem_zip hp).2
  · rw [get_feedback_pattern]
    show ((yellowPass (passInput g t) (tcAfterGreens g t)).map Prod.snd).count 'G' =
      ((g.zip t).countP fun p => decide (p.1 = p.2))
    have h1 : ((yellowPass (passInput g t) (tcAfterGreens g t)).map Prod.snd).count 'G' =
        ((yellowPass (passInput g t) (tcAfterGreens g t)).countP
          fun p => decide (p.2 = 'G')) := by
      rw [List.count_eq_countP, List.countP_map]
      apply List.countP_congr
      intro p _
      simp
    rw [h1, yellowPass_gcount]
    have h2 : ((passInput g t).countP fun p => decide (p.2 = 'G')) =
        ((passInput g t).map Prod.snd).countP fun m => decide (m = 'G') := by
      rw [List.countP_map]
      rfl
    rw [h2, passInput_map_snd g t hlen, greenMarks_gcount]

/-- Witness for C4 at a concrete repeated-letter input. -/
theorem feedback_pattern_shape_witness :
    (['s', 'p', 'e', 'e', 'd'] : List Char).length = 5 ∧
    (['s', 'p', 'a', 'd', 'e'] : List Char).length = 5 ∧
    ((get_feedback_pattern ['s', 'p', 'e', 'e', 'd'] ['s', 'p', 'a', 'd', 'e']).length = 5 ∧
      (∀ f ∈ get_feedback_pattern ['s', 'p', 'e', 'e', 'd'] ['s', 'p', 'a', 'd', 'e'],
        f = 'G' ∨ f = 'Y' ∨ f = '_') ∧
      (get_feedback_pattern ['s', 'p', 'e', 'e', 'd'] ['s', 'p', 'a', 'd', 'e']).count 'G' =
        ((['s', 'p', 'e', 'e', 'd'].zip ['s', 'p', 'a', 'd', 'e']).countP
          fun p => decide (p.1 = p.2))) :=
  ⟨by decide, by decide,
    feedback_pattern_shape ['s', 'p', 'e', 'e', 'd'] ['s', 'p', 'a', 'd', 'e']
      (by decide) (by decide)⟩

/-- C10: the feedback pattern is all green exactly when the guess equals the
target, so the game loop's `feedback == "GGGGG"` test fires exactly on a
correct guess. -/
theorem feedback_all_green_iff_eq (g t : List Char) (hg : g.length = 5)
    (ht : t.length = 5) :
    get_feedback_pattern g t = ['G', 'G', 'G', 'G', 'G'] ↔ g = t := by
  have hlen : g.length = t.length := by omega
  have hrepl : (['G', 'G', 'G', 'G', 'G'] : List Char) = List.replicate 5 'G' := rfl
  rw [hrepl, List.eq_replicate_iff]
  have key : (∀ b ∈ get_feedback_pattern g t, b = 'G') ↔ g = t := by
    rw [get_feedback_pattern, List.forall_mem_map, yellowPass_all_G]
    show (∀ p ∈ passInput g t, p.2 = 'G') ↔ g = t
    have h2 : (∀ p ∈ passInput g t, p.2 = 'G') ↔
        ∀ m ∈ (passInput g t).map Prod.snd, m = 'G' :=
      (@List.forall_mem_map _ _ Prod.snd (passInput g t) fun m => m = 'G').symm
    rw [h2, passInput_map_snd g t hlen]
    exact greenMarks_all_G g t hlen
  constructor
  · rintro ⟨_, hall⟩
    exact key.mp hall
  · intro he
    exact ⟨by rw [get_feedback_pattern_length g t hlen, hg], key.mpr he⟩

/-- Witness for C10: both directions at concrete inputs. -/
theorem feedback_all_green_iff_eq_witness :
    (['c', 'r', 'a', 'n', 'e'] : List Char).length = 5 ∧
    (get_feedback_pattern ['c', 'r', 'a', 'n', 'e'] ['c', 'r', 'a', 'n', 'e'] =
      ['G', 'G', 'G', 'G', 'G'] ↔
      (['c', 'r', 'a', 'n', 'e'] : List Char) = ['c', 'r', 'a', 'n', 'e']) :=
  ⟨by decide,
    feedback_all_green_iff_eq ['c', 'r', 'a', 'n', 'e'] ['c', 'r', 'a', 'n', 'e']
      (by decide) (by decide)⟩

theorem all_zip3_iff (w g f : List Char) (p : Char → Char → Char → Bool)
    (hw : w.length = g.length) (hf : g.length = f.length) :
    ((w.zip (g.zip f)).all fun x => p x.1 x.2.1 x.2.2) = true ↔
      ∀ (i : Nat) (hiw : i < w.length) (hig : i < g.length) (hif : i < f.length),
        p (w.get ⟨i, hiw⟩) (g.get ⟨i, hig⟩) (f.get ⟨i, hif⟩) = true := by
  induction w generalizing g f with
  | nil =>
    constructor
    · intro _ i hiw
      exact absurd hiw (Nat.not_lt_zero i)
    · intro _
      rfl
  | cons a w ih =>
    cases g with
    | nil => simp at hw
    | cons b g =>
      cases f with
      | nil => simp at hf
      | cons c f =>
        have hw2 : w.length = g.length := by simpa using hw
        have hf2 : g.length = f.length := by simpa using hf
        simp only [List.zip_cons_cons, List.all_cons, Bool.and_eq_true]
        rw [ih g f hw2 hf2]
        constructor
        · rintro ⟨hhead, htail⟩ i hiw hig hif
          cases i with
          | zero => exact hhead
          | succ j =>
            exact htail j (Nat.succ_lt_succ_iff.mp hiw) (Nat.succ_lt_succ_iff.mp hig)
              (Nat.succ_lt_succ_iff.mp hif)
        · intro h
          refine ⟨h 0 (Nat.succ_pos _) (Nat.succ_pos _) (Nat.succ_pos _), ?_⟩
          intro j hjw hjg hjf
          exact h (j + 1) (Nat.succ_lt_succ hjw) (Nat.succ_lt_succ hjg)
            (Nat.succ_lt_succ hjf)

/-- C7: `enforce_hard_mode_filter(word, guess, feedback)` returns `True` iff
every green position matches exactly and every yellow letter occurs in the
word but not at the yellow position; gray positions impose no constraint. -/
theorem hard_mode_admissible (w g f : List Char) (hw : w.length = 5)
    (hg : g.length = 5) (hf : f.length = 5) :
    enforce_hard_mode_filter w g f = true ↔
      ∀ (i : Nat) (hi : i < 5),
        (f.get ⟨i, by omega⟩ = 'G' → w.get ⟨i, by omega⟩ = g.get ⟨i, by omega⟩) ∧
        (f.get ⟨i, by omega⟩ = 'Y' →
          g.get ⟨i, by omega⟩ ∈ w ∧ w.get ⟨i, by omega⟩ ≠ g.get ⟨i, by omega⟩) := by
  have key := all_zip3_iff w g f
    (fun a b c => decide ((c = 'G' → a = b) ∧ (c = 'Y' → b ∈ w ∧ a ≠ b)))
    (by omega) (by omega)
  rw [enforce_hard_mode_filter]
  constructor
  · intro h i hi
    have h2 := key.mp h i (by omega) (by omega) (by omega)
    rw [decide_eq_true_eq] at h2
    exact h2
  · intro h
    apply key.mpr
    intro i hiw hig hif
    rw [decide_eq_true_eq]
    exact h i (by omega)

/-- Witness for C7: a concrete admissibility check.  After guess "crane" with
feedback `G____`, the word "crane" itself is admissible. -/
theorem hard_mode_admissible_witness :
    (['c', 'r', 'a', 'n', 'e'] : List Char).length = 5 ∧
    (['G', '_', '_', '_', '_'] : List Char).length = 5 ∧
    (enforce_hard_mode_filter ['c', 'r', 'a', 'n', 'e'] ['c', 'r', 'a', 'n', 'e']
        ['G', '_', '_', '_', '_'] = true ↔
      ∀ (i : Nat) (hi : i < 5),
        ((['G', '_', '_', '_', '_'] : List Char).get ⟨i, by simpa using hi⟩ = 'G' →
          (['c', 'r', 'a', 'n', 'e'] : List Char).get ⟨i, by simpa using hi⟩ =
            (['c', 'r', 'a', 'n', 'e'] : List Char).get ⟨i, by simpa using hi⟩) ∧
        ((['G', '_', '_', '_', '_'] : List Char).get ⟨i, by simpa using hi⟩ = 'Y' →
          (['c', 'r', 'a', 'n', 'e'] : List Char).get ⟨i, by simpa using hi⟩ ∈
              (['c', 'r', 'a', 'n', 'e'] : List Char) ∧
            (['c', 'r', 'a', 'n', 'e'] : List Char).get ⟨i, by simpa using hi⟩ ≠
              (['c', 'r', 'a', 'n', 'e'] : List Char).get ⟨i, by simpa using hi⟩)) :=
  ⟨by decide, by decide,
    hard_mode_admissible ['c', 'r', 'a', 'n', 'e'] ['c', 'r', 'a', 'n', 'e']
      ['G', '_', '_', '_', '_'] (by decide) (by decide) (by decide)⟩

/-- C2: a word retained by either variant of `filter_candidates` satisfies the
gray-letter multiplicity rule: at every gray position with guess letter `c`,
with `k` the number of positions where the guess has `c` and the feedback is
green or yellow, `k = 0` forces `c` absent from the word and `k > 0` forces
exactly `k` occurrences.  The hypothesis `hdisj` records that guess letters
are lowercase and so never collide with the feedback symbols `G`, `Y`, `_`. -/
theorem gray_letter_multiplicity (cands : List Word) (w g f : List Char)
    (hw : w.length = 5) (hg : g.length = 5) (hf : f.length = 5)
    (hdisj : ∀ c ∈ g, c ∉ f)
    (hmem : w ∈ filter_candidates_whwe cands g f ∨ w ∈ filter_candidates_wh cands g f) :
    ∀ (i : Nat) (hig : i < g.length) (hif : i < f.length), f.get ⟨i, hif⟩ = '_' →
      (fbCount g f (g.get ⟨i, hig⟩) = 0 → g.get ⟨i, hig⟩ ∉ w) ∧
      (0 < fbCount g f (g.get ⟨i, hig⟩) →
        w.count (g.get ⟨i, hig⟩) = fbCount g f (g.get ⟨i, hig⟩)) := by
  intro i hig hif hgray
  have hiw : i < w.length := by omega
  have hkpos_mem : 0 < fbCount g f (g.get ⟨i, hig⟩) →
      ∃ (j : Nat) (hjg : j < g.length) (hjf : j < f.length),
        g.get ⟨j, hjg⟩ = g.get ⟨i, hig⟩ ∧
          (f.get ⟨j, hjf⟩ = 'G' ∨ f.get ⟨j, hjf⟩ = 'Y') := by
    intro hpos0
    rw [fbCount, List.countP_pos_iff] at hpos0
    obtain ⟨x, hx, hpx⟩ := hpos0
    rw [decide_eq_true_eq] at hpx
    obtain ⟨j, hj, hxeq⟩ := List.mem_iff_getElem.mp hx
    have hj2 : j < (g.zip f).length := hj
    rw [List.length_zip] at hj2
    have hjg : j < g.length := by omega
    have hjf : j < f.length := by omega
    have h1 : (g.zip f)[j] = (g[j], f[j]) := List.getElem_zip
    rw [h1] at hxeq
    refine ⟨j, hjg, hjf, ?_, ?_⟩
    · have h2 : g.get ⟨j, hjg⟩ = x.1 := by rw [← hxeq]; rfl
      rw [h2, hpx.1]
    · have h2 : f.get ⟨j, hjf⟩ = x.2 := by rw [← hxeq]; rfl
      rw [h2]
      exact hpx.2
  rcases hmem with hmemf | hmemf
  · -- the whwe.py variant: the gray branch tests `feedback.count(g)`, which is
    -- zero for lowercase letters, so it always demands total absence.
    have hk : keeps_whwe w g f = true := (List.mem_filter.mp hmemf).2
    have key := all_zip3_iff w g f
      (fun a b c' => decide ((c' = 'G' ∧ a = b) ∨ (c' = 'Y' ∧ a ≠ b ∧ b ∈ w) ∨
        (c' = '_' ∧ (if f.count b = 0 then b ∉ w else w.count b = f.count b))))
      (by omega) (by omega)
    have hpos := key.mp hk
    have h2 := hpos i hiw hig hif
    simp only [decide_eq_true_eq] at h2
    have hc0 : f.count (g.get ⟨i, hig⟩) = 0 :=
      List.count_eq_zero.mpr (hdisj _ (List.get_mem g i hig))
    have hnotin : g.get ⟨i, hig⟩ ∉ w := by
      rcases h2 with ⟨hG, _⟩ | ⟨hY, _⟩ | ⟨_, hcond⟩
      · exact absurd (hgray.symm.trans hG) (by decide)
      · exact absurd (hgray.symm.trans hY) (by decide)
      · rw [if_pos hc0] at hcond
        exact hcond
    refine ⟨fun _ => hnotin, fun hp0 => absurd ?_ hnotin⟩
    obtain ⟨j, hjg, hjf, hj1, hjGY⟩ := hkpos_mem hp0
    have hjw : j < w.length := by omega
    have h3 := hpos j hjw hjg hjf
    simp only [decide_eq_true_eq] at h3
    rcases h3 with ⟨_, hEq⟩ | ⟨_, _, hmemw⟩ | ⟨hX, _⟩
    · have hcw := List.get_mem w j hjw
      rw [hEq, hj1] at hcw
      exact hcw
    · rw [hj1] at hmemw
      exact hmemw
    · rcases hjGY with hjG | hjY
      · exact absurd (hX.symm.trans hjG) (by decide)
      · exact absurd (hX.symm.trans hjY) (by decide)
  · -- the wordlehelper.py variant implements the rule verbatim.
    have hk := (List.mem_filter.mp hmemf).2
    rw [Bool.and_eq_true] at hk
    have key := all_zip3_iff w g f
      (fun a b c' => decide ((c' = 'Y' → b ∈ w ∧ a ≠ b) ∧
        (c' = '_' → (if fbCount g f b = 0 then b ∉ w
          else w.count b = fbCount g f b))))
      (by omega) (by omega)
    have h2 := key.mp hk.2 i hiw hig hif
    simp only [decide_eq_true_eq] at h2
    have hcond := h2.2 hgray
    constructor
    · intro hk0
      rw [if_pos hk0] at hcond
      exact hcond
    · intro hp0
      rw [if_neg (Nat.pos_iff_ne_zero.mp hp0)] at hcond
      exact hcond

/-- Witness for C2 on the repeated-letter fixture: "spade" is retained by the
wordlehelper.py filter for guess "speed" with feedback `GGY_Y`, and at the gray
position (the second `e`) it indeed contains exactly one `e`. -/
theorem gray_letter_multiplicity_witness :
    ((['s', 'p', 'a', 'd', 'e'] : List Char).length = 5 ∧
      (['s', 'p', 'e', 'e', 'd'] : List Char).length = 5 ∧
      (['G', 'G', 'Y', '_', 'Y'] : List Char).length = 5 ∧
      (∀ c ∈ (['s', 'p', 'e', 'e', 'd'] : List Char),
        c ∉ (['G', 'G', 'Y', '_', 'Y'] : List Char)) ∧
      (['s', 'p', 'a', 'd', 'e'] : Word) ∈
        filter_candidates_wh [['s', 'p', 'a', 'd', 'e']] ['s', 'p', 'e', 'e', 'd']
          ['G', 'G', 'Y', '_', 'Y']) ∧
    (∀ (i : Nat) (hig : i < (['s', 'p', 'e', 'e', 'd'] : List Char).length)
        (hif : i < (['G', 'G', 'Y', '_', 'Y'] : List Char).length),
      (['G', 'G', 'Y', '_', 'Y'] : List Char).get ⟨i, hif⟩ = '_' →
      (fbCount ['s', 'p', 'e', 'e', 'd'] ['G', 'G', 'Y', '_', 'Y']
          ((['s', 'p', 'e', 'e', 'd'] : List Char).get ⟨i, hig⟩) = 0 →
        (['s', 'p', 'e', 'e', 'd'] : List Char).get ⟨i, hig⟩ ∉
          (['s', 'p', 'a', 'd', 'e'] : List Char)) ∧
      (0 < fbCount ['s', 'p', 'e', 'e', 'd'] ['G', 'G', 'Y', '_', 'Y']
          ((['s', 'p', 'e', 'e', 'd'] : List Char).get ⟨i, hig⟩) →
        (['s', 'p', 'a', 'd', 'e'] : List Char).count
            ((['s', 'p', 'e', 'e', 'd'] : List Char).get ⟨i, hig⟩) =
          fbCount ['s', 'p', 'e', 'e', 'd'] ['G', 'G', 'Y', '_', 'Y']
            ((['s', 'p', 'e', 'e', 'd'] : List Char).get ⟨i, hig⟩))) :=
  ⟨⟨by decide, by decide, by decide, by decide, by decide⟩,
    gray_letter_multiplicity [['s', 'p', 'a', 'd', 'e']] ['s', 'p', 'a', 'd', 'e']
      ['s', 'p', 'e', 'e', 'd'] ['G', 'G', 'Y', '_', 'Y'] (by decide) (by decide)
      (by decide) (by decide) (Or.inr (by decide))⟩

/-- C9: both variants of `filter_candidates` are idempotent: each filters by a
per-word predicate that does not depend on the rest of the candidate list, so a
second application with the same guess and feedback is a no-op. -/
theorem filter_candidates_idempotent (cands : List Word) (g f : List Char) :
    filter_candidates_whwe (filter_candidates_whwe cands g f) g f =
        filter_candidates_whwe cands g f ∧
      filter_candidates_wh (filter_candidates_wh cands g f) g f =
        filter_candidates_wh cands g f := by
  constructor
  · rw [filter_candidates_whwe, filter_candidates_whwe, List.filter_filter]
    apply List.filter_congr
    intro w _
    rw [Bool.and_self]
  · rw [filter_candidates_wh, filter_candidates_wh, List.filter_filter]
    apply List.filter_congr
    intro w _
    rw [Bool.and_assoc, Bool.and_comm (keeps_wh_yg w g f), ← Bool.and_assoc,
      ← Bool.and_assoc, Bool.and_self, Bool.and_assoc, Bool.and_self]

/-- C1, failing input: whwe.py's `filter_candidates` removes the true target
from a candidate list even when fed the feedback the simulator itself produced
for that target.  For guess "speed" against target "spade" the simulator
reports `GGY_Y`; the gray at the second `e` makes whwe.py's filter demand
`word.count('e') == feedback.count('e')`, and `feedback.count('e')` counts the
letter `e` in the symbol string "GGY_Y", which is 0, so the filter demands that
`e` not occur at all and discards "spade".  The wordlehelper.py variant keeps
it.  This contradicts the spec's soundness property; whwe.py's gray rule is a
slip (the spec's §9 designates the per-letter green/yellow count as
canonical). -/
theorem soundness_failing_input :
    get_feedback_pattern ['s', 'p', 'e', 'e', 'd'] ['s', 'p', 'a', 'd', 'e'] =
        ['G', 'G', 'Y', '_', 'Y'] ∧
      (['s', 'p', 'a', 'd', 'e'] : Word) ∈ ([['s', 'p', 'a', 'd', 'e']] : List Word) ∧
      (['s', 'p', 'a', 'd', 'e'] : Word) ∉
        filter_candidates_whwe [['s', 'p', 'a', 'd', 'e']] ['s', 'p', 'e', 'e', 'd']
          (get_feedback_pattern ['s', 'p', 'e', 'e', 'd'] ['s', 'p', 'a', 'd', 'e']) ∧
      (['s', 'p', 'a', 'd', 'e'] : Word) ∈
        filter_candidates_wh [['s', 'p', 'a', 'd', 'e']] ['s', 'p', 'e', 'e', 'd']
          (get_feedback_pattern ['s', 'p', 'e', 'e', 'd'] ['s', 'p', 'a', 'd', 'e']) := by
  refine ⟨by decide, by decide, by decide, by decide⟩

theorem calculate_entropy_nil (g : Word) : calculate_entropy g [] = 0 := rfl

/-- Well-formedness of the injected `random.choice`: it returns a member of
its argument and fails (raises, modelled as `none`) exactly on an empty
list. -/
def choiceWF (choice : List Word → Option Word) : Prop :=
  choice [] = none ∧ ∀ l : List Word, l ≠ [] → ∃ x, x ∈ l ∧ choice l = some x

theorem best_step_nil (b : Option Word × ℝ) (g : Word) :
    best_step [] [] b g = if b.2 < 0 then (some g, 0) else b := by
  rw [best_step]
  have he : calculate_entropy g ([] : List Word) +
      (if g ∈ ([] : List Word) then (0.01 : ℝ) else 0) = 0 := by
    rw [calculate_entropy_nil]
    simp
  simp only [he]

theorem best_fold_nil_aux (pool : List Word) (g0 : Word) :
    pool.foldl (best_step [] []) (some g0, (0 : ℝ)) = (some g0, 0) := by
  induction pool with
  | nil => rfl
  | cons g rest ih =>
    rw [List.foldl_cons, best_step_nil,
      if_neg (show ¬((some g0, (0 : ℝ)).2 < 0) by norm_num)]
    exact ih

theorem best_fold_nil_fst (pool : List Word) :
    (best_fold [] [] pool).1 = pool.head? := by
  cases pool with
  | nil => rfl
  | cons g rest =>
    rw [best_fold, List.foldl_cons, best_step_nil,
      if_pos (show ((none : Option Word), (-1 : ℝ)).2 < 0 by norm_num),
      best_fold_nil_aux]
    rfl

/-- C8, amended behaviour: for an empty candidate list `pick_guess_entropy`
returns the first word of the effective guess pool (every pool word scores
entropy 0 against the empty sample, so the first strict improvement over -1.0
wins); it fails to return a word only when that pool is empty, e.g. when
`all_words` is absent or empty. -/
theorem pick_guess_entropy_empty_candidates (choice : List Word → Option Word)
    (sample : List Word → Nat → List Word) (all_words : Option (List Word))
    (mc : Nat) (hard_mode : Bool) (lg lf : List Char)
    (hchoice : choice [] = none) :
    pick_guess_entropy choice sample [] all_words mc hard_mode lg lf =
      (guess_pool [] all_words hard_mode lg lf).head? := by
  rw [pick_guess_entropy]
  rw [if_neg (show ¬([] : List Word).length = 1 by simp)]
  have hs : (if ([] : List Word).length > mc then sample [] mc else ([] : List Word)) =
      ([] : List Word) := by simp
  simp only [hs]
  rw [best_fold_nil_fst]
  cases hpool : guess_pool [] all_words hard_mode lg lf with
  | nil => simpa using hchoice
  | cons g rest => simp

/-- C8, counterexample to the claim as stated: with an empty candidates list
but a non-empty `all_words`, `pick_guess_entropy` does successfully return a
guess word (the first word of `all_words`), silently inventing a suggestion
from an empty candidate set. -/
theorem empty_candidates_returns_guess :
    pick_guess_entropy (fun l => l.head?) (fun l _ => l) []
      (some [['c', 'r', 'a', 'n', 'e']]) 50 false [] [] =
      some ['c', 'r', 'a', 'n', 'e'] := by
  rw [pick_guess_entropy_empty_candidates (fun l => l.head?) (fun l _ => l)
    (some [['c', 'r', 'a', 'n', 'e']]) 50 false [] [] rfl]
  rfl

/-- Witness for the amended C8 theorem: with `all_words` absent the selector
indeed fails to produce a word. -/
theorem pick_guess_entropy_empty_candidates_witness :
    ((fun _ : List Word => (none : Option Word)) [] = none) ∧
    pick_guess_entropy (fun _ => none) (fun l _ => l) [] none 50 false [] [] =
      (guess_pool [] none false [] []).head? :=
  ⟨rfl, pick_guess_entropy_empty_candidates (fun _ => none) (fun l _ => l) none
    50 false [] [] rfl⟩

/-- C6: on a single-element candidate list `pick_guess` returns that candidate
for every strategy, hard-mode flag, `all_words`, previous guess/feedback and
well-formed behaviour of the random source.  The entropy branch short-circuits
on `len(candidates) == 1`; the frequency branch filters the singleton and
`random.choice` then picks from `[w]` either way. -/
theorem pick_guess_singleton (w : Word) (choice : List Word → Option Word)
    (sample : List Word → Nat → List Word) (all_words : Option (List Word))
    (use_entropy hard_mode : Bool) (lg lf : List Char)
    (hchoice : choiceWF choice) :
    pick_guess choice sample [w] all_words use_entropy hard_mode lg lf = some w := by
  obtain ⟨x, hx, hcx⟩ := hchoice.2 [w] (List.cons_ne_nil w [])
  have hxw : x = w := List.mem_singleton.mp hx
  rw [hxw] at hcx
  cases use_entropy with
  | true =>
    rw [pick_guess, if_pos rfl, pick_guess_entropy,
      if_pos (show ([w] : List Word).length = 1 by rfl)]
    rfl
  | false =>
    rw [pick_guess, if_neg (show ¬(false = true) by simp)]
    by_cases hp : ((most_common5 [w]).all fun c => decide (c ∈ w)) = true
    · simp only [List.filter_cons, List.filter_nil, hp, if_true]
      simpa using hcx
    · rw [Bool.not_eq_true] at hp
      simp only [List.filter_cons, List.filter_nil, hp, if_false]
      simpa using hcx

/-- Witness for C6 at a concrete instantiation with `random.choice` modelled
as taking the head of the list. -/
theorem pick_guess_singleton_witness :
    choiceWF (fun l => l.head?) ∧
    pick_guess (fun l => l.head?) (fun l _ => l) [['c', 'r', 'a', 'n', 'e']]
      none true false [] [] = some ['c', 'r', 'a', 'n', 'e'] := by
  have hwf : choiceWF (fun l => l.head?) := by
    constructor
    · rfl
    · intro l hl
      cases l with
      | nil => exact absurd rfl hl
      | cons a t => exact ⟨a, List.mem_cons_self a t, rfl⟩
  exact ⟨hwf, pick_guess_singleton ['c', 'r', 'a', 'n', 'e'] (fun l => l.head?)
    (fun l _ => l) none true false [] [] hwf⟩

theorem patterns_length (guess : Word) (candidates : List Word) :
    (patterns guess candidates).length = candidates.length := by
  rw [patterns, List.length_map]

theorem entropy_term_nonneg {x : ℝ} (h0 : 0 < x) (h1 : x ≤ 1) :
    0 ≤ -(x * Real.logb 2 x) := by
  have hl : Real.logb 2 x ≤ 0 := Real.logb_nonpos (by norm_num) h0.le h1
  have hm : x * Real.logb 2 x ≤ 0 := mul_nonpos_iff.mpr (Or.inl ⟨h0.le, hl⟩)
  linarith

theorem entropy_term_eq_zero_iff {x : ℝ} (h0 : 0 < x) :
    -(x * Real.logb 2 x) = 0 ↔ x = 1 := by
  rw [neg_eq_zero, mul_eq_zero]
  constructor
  · rintro (h | h)
    · exact absurd h h0.ne'
    · rcases Real.logb_eq_zero.mp h with h | h | h | h | h | h
      · norm_num at h
      · norm_num at h
      · norm_num at h
      · exact absurd h h0.ne'
      · exact h
      · exfalso
        rw [h] at h0
        norm_num at h0
  · intro h
    right
    rw [h, Real.logb_one]

theorem count_frac_pos (l : List (List Char)) (hl : l ≠ []) {p : List Char}
    (hp : p ∈ l.toFinset) :
    0 < (l.count p : ℝ) / (l.length : ℝ) ∧ (l.count p : ℝ) / (l.length : ℝ) ≤ 1 := by
  have hn : 0 < (l.length : ℝ) := by
    exact_mod_cast List.length_pos.mpr hl
  have hc : 0 < l.count p := List.count_pos_iff.mpr (List.mem_toFinset.mp hp)
  constructor
  · exact div_pos (by exact_mod_cast hc) hn
  · rw [div_le_one hn]
    exact_mod_cast List.count_le_length p l

theorem entropy_sum_nonneg (l : List (List Char)) (hl : l ≠ []) :
    0 ≤ l.toFinset.sum fun p =>
      -(((l.count p : ℝ) / (l.length : ℝ)) *
        Real.logb 2 ((l.count p : ℝ) / (l.length : ℝ))) := by
  apply Finset.sum_nonneg
  intro p hp
  exact entropy_term_nonneg (count_frac_pos l hl hp).1 (count_frac_pos l hl hp).2

theorem entropy_sum_eq_zero_iff (l : List (List Char)) (hl : l ≠ []) :
    (l.toFinset.sum fun p =>
        -(((l.count p : ℝ) / (l.length : ℝ)) *
          Real.logb 2 ((l.count p : ℝ) / (l.length : ℝ)))) = 0 ↔
      ∀ p ∈ l.toFinset, l.count p = l.length := by
  have hn : 0 < (l.length : ℝ) := by
    exact_mod_cast List.length_pos.mpr hl
  rw [Finset.sum_eq_zero_iff_of_nonneg fun p hp =>
    entropy_term_nonneg (count_frac_pos l hl hp).1 (count_frac_pos l hl hp).2]
  constructor
  · intro h p hp
    have h1 := (entropy_term_eq_zero_iff (count_frac_pos l hl hp).1).mp (h p hp)
    rw [div_eq_one_iff_eq hn.ne'] at h1
    exact_mod_cast h1
  · intro h p hp
    apply (entropy_term_eq_zero_iff (count_frac_pos l hl hp).1).mpr
    rw [div_eq_one_iff_eq hn.ne']
    exact_mod_cast h p hp

theorem sum_count_toFinset (l : List (List Char)) :
    (l.toFinset.sum fun p => l.count p) = l.length := by
  induction l with
  | nil => rfl
  | cons a rest ih =>
    rw [List.toFinset_cons]
    have hcnt : ∀ p, (a :: rest).count p = rest.count p + if a = p then 1 else 0 := by
      intro p
      rw [List.count_cons]
      by_cases h : a = p
      · simp [h]
      · simp [h, beq_false_of_ne h]
    by_cases ha : a ∈ rest.toFinset
    · rw [Finset.insert_eq_self.mpr ha]
      calc (rest.toFinset.sum fun p => (a :: rest).count p)
          = rest.toFinset.sum fun p => rest.count p + if a = p then 1 else 0 :=
            Finset.sum_congr rfl fun p _ => hcnt p
        _ = (rest.toFinset.sum fun p => rest.count p) +
              rest.toFinset.sum fun p => if a = p then 1 else 0 :=
            Finset.sum_add_distrib
        _ = rest.length + 1 := by rw [ih, Finset.sum_ite_eq, if_pos ha]
        _ = (a :: rest).length := by simp
    · rw [Finset.sum_insert ha]
      have ha2 : a ∉ rest := fun h => ha (List.mem_toFinset.mpr h)
      have h1 : (a :: rest).count a = 1 := by
        rw [hcnt a, if_pos rfl, List.count_eq_zero.mpr ha2]
      have h2 : (rest.toFinset.sum fun p => (a :: rest).count p) = rest.length := by
        rw [← ih]
        apply Finset.sum_congr rfl
        intro p hp
        rw [hcnt p, if_neg, Nat.add_zero]
        intro he
        exact ha2 (he ▸ List.mem_toFinset.mp hp)
      rw [h1, h2]
      simp [Nat.add_comm]

theorem logb_two_concave : ConcaveOn ℝ (Set.Ioi 0) (Real.logb 2) := by
  have h1 : (0 : ℝ) ≤ (Real.log 2)⁻¹ := by
    rw [inv_nonneg]
    exact Real.log_nonneg (by norm_num)
  have h2 := (strictConcaveOn_log_Ioi.concaveOn).smul h1
  have h3 : (fun x => (Real.log 2)⁻¹ • Real.log x) = Real.logb 2 := by
    funext x
    rw [smul_eq_mul, Real.logb, div_eq_inv_mul]
  rwa [h3] at h2

theorem entropy_sum_le_log_card (l : List (List Char)) (hl : l ≠ []) :
    (l.toFinset.sum fun p =>
        -(((l.count p : ℝ) / (l.length : ℝ)) *
          Real.logb 2 ((l.count p : ℝ) / (l.length : ℝ)))) ≤
      Real.logb 2 (l.toFinset.card : ℝ) := by
  have hn : 0 < (l.length : ℝ) := by
    exact_mod_cast List.length_pos.mpr hl
  have h₀ : ∀ p ∈ l.toFinset, 0 ≤ (l.count p : ℝ) / (l.length : ℝ) :=
    fun p hp => (count_frac_pos l hl hp).1.le
  have h₁ : (l.toFinset.sum fun p => (l.count p : ℝ) / (l.length : ℝ)) = 1 := by
    rw [← Finset.sum_div]
    have hsum : (l.toFinset.sum fun p => (l.count p : ℝ)) = (l.length : ℝ) := by
      rw [← Nat.cast_sum, sum_count_toFinset]
    rw [hsum, div_self hn.ne']
  have hmem : ∀ p ∈ l.toFinset,
      (l.length : ℝ) / (l.count p : ℝ) ∈ Set.Ioi (0 : ℝ) := by
    intro p hp
    have hc : (0 : ℝ) < (l.count p : ℝ) := by
      exact_mod_cast List.count_pos_iff.mpr (List.mem_toFinset.mp hp)
    exact Set.mem_Ioi.mpr (div_pos hn hc)
  have hjen := logb_two_concave.le_map_sum h₀ h₁ hmem
  have hq : (l.toFinset.sum fun p =>
      ((l.count p : ℝ) / (l.length : ℝ)) • ((l.length : ℝ) / (l.count p : ℝ))) =
      (l.toFinset.card : ℝ) := by
    rw [Finset.sum_congr rfl (g := fun _ => (1 : ℝ)) ?_]
    · rw [Finset.sum_const, nsmul_eq_mul, mul_one]
    · intro p hp
      have hc : (0 : ℝ) < (l.count p : ℝ) := by
        exact_mod_cast List.count_pos_iff.mpr (List.mem_toFinset.mp hp)
      rw [smul_eq_mul]
      field_simp
  rw [hq] at hjen
  refine le_trans (le_of_eq ?_) hjen
  apply Finset.sum_congr rfl
  intro p hp
  have hc : (0 : ℝ) < (l.count p : ℝ) := by
    exact_mod_cast List.count_pos_iff.mpr (List.mem_toFinset.mp hp)
  rw [smul_eq_mul,
    show (l.length : ℝ) / (l.count p : ℝ) =
      ((l.count p : ℝ) / (l.length : ℝ))⁻¹ from (inv_div _ _).symm,
    Real.logb_inv, mul_neg]

/-- C5: entropy bounds of `calculate_entropy`: it is non-negative, equals 0 on
an empty candidate list, for a non-empty list it is 0 exactly when every
candidate yields the same feedback pattern against the guess, and it is at
most `log2` of the number of distinct patterns observed. -/
theorem entropy_bounds (guess : Word) (candidates : List Word) :
    0 ≤ calculate_entropy guess candidates ∧
    (candidates = [] → calculate_entropy guess candidates = 0) ∧
    (candidates ≠ [] → (calculate_entropy guess candidates = 0 ↔
      ∀ c1 ∈ candidates, ∀ c2 ∈ candidates,
        get_feedback_pattern guess c1 = get_feedback_pattern guess c2)) ∧
    calculate_entropy guess candidates ≤
      Real.logb 2 ((patterns guess candidates).toFinset.card : ℝ) := by
  by_cases hne : candidates = []
  · subst hne
    refine ⟨le_of_eq (calculate_entropy_nil guess).symm, fun _ => rfl,
      fun h => absurd rfl h, ?_⟩
    rw [calculate_entropy_nil]
    simp [patterns, Real.logb_zero]
  · have hpatsne : patterns guess candidates ≠ [] := by
      simp [patterns, hne]
    have hunfold : calculate_entropy guess candidates =
        (patterns guess candidates).toFinset.sum fun p =>
          -((((patterns guess candidates).count p : ℝ) /
              ((patterns guess candidates).length : ℝ)) *
            Real.logb 2 (((patterns guess candidates).count p : ℝ) /
              ((patterns guess candidates).length : ℝ))) := by
      rw [calculate_entropy, if_neg (by simp [hne]), patterns_length]
    refine ⟨?_, fun h => absurd h hne, fun _ => ?_, ?_⟩
    · rw [hunfold]
      exact entropy_sum_nonneg _ hpatsne
    · rw [hunfold, entropy_sum_eq_zero_iff _ hpatsne]
      constructor
      · intro h c1 hc1 c2 hc2
        have hp1 : get_feedback_pattern guess c1 ∈ patterns guess candidates :=
          List.mem_map_of_mem _ hc1
        have hall := List.count_eq_length.mp (h _ (List.mem_toFinset.mpr hp1))
        exact hall _ (List.mem_map_of_mem _ hc2)
      · intro h p hp
        rw [List.count_eq_length]
        intro b hb
        obtain ⟨cp, hcp, rfl⟩ := List.mem_map.mp (List.mem_toFinset.mp hp)
        obtain ⟨cb, hcb, rfl⟩ := List.mem_map.mp hb
        exact h cp hcp cb hcb
    · rw [hunfold]
      exact entropy_sum_le_log_card _ hpatsne

/-- Witness for C5: on the singleton candidate list the zero-iff direction of
the bounds yields entropy exactly 0. -/
theorem entropy_bounds_witness :
    calculate_entropy ['c', 'r', 'a', 'n', 'e'] [['c', 'r', 'a', 'n', 'e']] = 0 := by
  have h := (entropy_bounds ['c', 'r', 'a', 'n', 'e'] [['c', 'r', 'a', 'n', 'e']]).2.2.1
    (by simp)
  apply h.mpr
  intro c1 h1 c2 h2
  rw [List.mem_singleton.mp h1, List.mem_singleton.mp h2]

end WordleHelper
